import Mathlib

/-!
Verification of the version-parsing and retention-decision engine of
d3_file_cleaner.py.

The Python source is shallowly embedded: filenames are lists of
characters, regular-expression searches over the two fixed patterns are
modelled as explicit suffix scans, `datetime` values become a record of
numeric fields compared lexicographically, and exceptions become
`Except` results.  All definitions are translated from the source file
`src/d3_file_cleaner.py`; the embedding is restricted to ASCII input
(the regexes `[a-zA-Z]` are ASCII by definition; `\d` and `int` also
accept non-ASCII unicode digits in Python, which no input considered
here contains).
-/

namespace D3

/-- A filename, or the extension-stripped part of one, as a list of
characters. -/
abbrev FName := List Char

/-- Numeric value of a decimal digit character, as used by `int` and
`strptime` on digit strings. -/
def digitVal (c : Char) : Nat := c.toNat - 48

/-- Value of a string of decimal digits, most significant first
(Python `int` on a non-empty all-digit string). -/
def digitsToNat (s : List Char) : Nat :=
  s.foldl (fun a c => 10 * a + digitVal c) 0

/-- Python `int(s)` restricted to the shapes that occur in this
program: it succeeds exactly on non-empty all-digit strings (every
string reaching it comes from the regex group `(\d+)`). -/
def pyIntDigits (s : List Char) : Option Nat :=
  if !s.isEmpty && s.all Char.isDigit then some (digitsToNat s) else none

/-- The value stored in a `datetime` produced by `strptime`: the
calendar fields, with hour and minute zero for date-only tokens.
`datetime` comparison is lexicographic on these fields. -/
structure PyDate where
  year : Nat
  month : Nat
  day : Nat
  hour : Nat
  minute : Nat
deriving DecidableEq, Repr

/-- Gregorian leap-year rule, as used by `datetime` for day-of-month
validation. -/
def isLeap (y : Nat) : Bool :=
  (y % 4 == 0 && y % 100 != 0) || y % 400 == 0

/-- Number of days in a month, per `datetime`. -/
def daysInMonth (y m : Nat) : Nat :=
  if m == 2 then (if isLeap y then 29 else 28)
  else if m == 4 || m == 6 || m == 9 || m == 11 then 30
  else 31

/-- Validity of calendar fields: `datetime` accepts years 1..9999,
months 1..12 and days 1..days-in-month. -/
def validDate (y m d : Nat) : Bool :=
  decide (1 ≤ y) && decide (y ≤ 9999) && decide (1 ≤ m) && decide (m ≤ 12) &&
  decide (1 ≤ d) && decide (d ≤ daysInMonth y m)

/-- Validity of the time fields: hours 0..23, minutes 0..59. -/
def validTime (hh mm : Nat) : Bool :=
  decide (hh ≤ 23) && decide (mm ≤ 59)

/-- Errors raised by `VersionInfo.__init__` (all `ValueError` in
Python, distinguished here by the raising site): the length-check
branch, the unrecognized-prefix branch, a failed `int` conversion, and
a failed strict `strptime` date parse. -/
inductive VErr where
  | invalidDateFormat
  | invalidVersionFormat
  | invalidSequence
  | invalidDate
deriving DecidableEq, Repr

/-- `datetime.strptime(ds, %Y%m%d)` on an 8-character string: the
calendar fields are the fixed-width digit slices; non-digit characters
or out-of-range fields raise. -/
def strptime8 (ds : List Char) : Except VErr PyDate :=
  let y := digitsToNat (ds.take 4)
  let m := digitsToNat ((ds.drop 4).take 2)
  let d := digitsToNat (ds.drop 6)
  if ds.all Char.isDigit && validDate y m d then .ok ⟨y, m, d, 0, 0⟩
  else .error .invalidDate

/-- `datetime.strptime(ds, %Y%m%d%H%M)` on a 12-character string. -/
def strptime12 (ds : List Char) : Except VErr PyDate :=
  let y := digitsToNat (ds.take 4)
  let m := digitsToNat ((ds.drop 4).take 2)
  let d := digitsToNat ((ds.drop 6).take 2)
  let hh := digitsToNat ((ds.drop 8).take 2)
  let mm := digitsToNat (ds.drop 10)
  if ds.all Char.isDigit && validDate y m d && validTime hh mm then
    .ok ⟨y, m, d, hh, mm⟩
  else .error .invalidDate

/-- A successfully constructed `VersionInfo`: either a date-family
version (a parsed date plus the optional single-letter suffix) or a
sequence-family version (the parsed number).  A constructed instance
always has exactly one of the two flags `is_date_version` /
`is_numeric_version` set, which this inductive bakes in. -/
inductive VersionInfo where
  | dateV (date : PyDate) (letter : Option Char)
  | seqV (n : Nat)
deriving DecidableEq, Repr

/-- The `is_date_version` flag of a constructed `VersionInfo`. -/
def VersionInfo.isDate : VersionInfo → Bool
  | .dateV _ _ => true
  | .seqV _ => false

/-- The `is_numeric_version` flag of a constructed `VersionInfo`. -/
def VersionInfo.isSeq : VersionInfo → Bool
  | .dateV _ _ => false
  | .seqV _ => true

/-- `VersionInfo.__init__(version_str)`: a string starting with `v` is
treated as a date version (strip one trailing alphabetic character as
the letter, then require the remainder to have length 9 or 13 and
parse it strictly); a string starting with `_v` is a sequence version
(`int` of the rest); anything else is rejected. -/
def classify (s : List Char) : Except VErr VersionInfo :=
  if s.head? = some 'v' then
    let lastAlpha : Option Char :=
      match s.getLast? with
      | some c => if c.isAlpha then some c else none
      | none => none
    let clean : List Char :=
      match lastAlpha with
      | some _ => s.dropLast
      | none => s
    if clean.length = 9 then
      (strptime8 (clean.drop 1)).map fun d => .dateV d lastAlpha
    else if clean.length = 13 then
      (strptime12 (clean.drop 1)).map fun d => .dateV d lastAlpha
    else .error .invalidDateFormat
  else if s.take 2 = ['_', 'v'] then
    match pyIntDigits (s.drop 2) with
    | some n => .ok (.seqV n)
    | none => .error .invalidSequence
  else .error .invalidVersionFormat

/-- Comparison of the optional letter suffixes when the dates are
equal: an absent letter is older than any present letter; two present
letters compare as Python single-character strings, i.e. by code
point. -/
def letterLt (a b : Option Char) : Bool :=
  match a, b with
  | none, none => false
  | none, some _ => true
  | some _, none => false
  | some x, some y => decide (x.toNat < y.toNat)

/-- `datetime` strict comparison: lexicographic on the fields. -/
def dateLt (a b : PyDate) : Bool :=
  decide (a.year < b.year) ||
  (a.year == b.year && (decide (a.month < b.month) ||
    (a.month == b.month && (decide (a.day < b.day) ||
      (a.day == b.day && (decide (a.hour < b.hour) ||
        (a.hour == b.hour && decide (a.minute < b.minute))))))))

/-- The error raised by `VersionInfo.__lt__` on a cross-family
comparison. -/
inductive CmpErr where
  | incomparable
deriving DecidableEq, Repr

/-- `VersionInfo.__lt__`: date versions compare by date, then by
letter when the dates are equal; numeric versions compare by number;
comparing across the two families raises. -/
def vlt (a b : VersionInfo) : Except CmpErr Bool :=
  match a, b with
  | .dateV d1 l1, .dateV d2 l2 =>
    .ok (if d1 ≠ d2 then dateLt d1 d2 else letterLt l1 l2)
  | .seqV m, .seqV n => .ok (decide (m < n))
  | _, _ => .error .incomparable

/-- The comparison actually used as the sort key.  Sorting happens
only after the mixed-family check, so the error branch of `vlt` is
unreachable there; it is mapped to `false` to obtain a total Boolean
relation. -/
def vltB (a b : VersionInfo) : Bool :=
  match vlt a b with
  | .ok r => r
  | .error _ => false

/-- `os.path.splitext`: split at the last dot, unless every character
before that dot is itself a dot (leading dots of the basename never
start an extension). -/
def splitext (p : List Char) : List Char × List Char :=
  match (List.findIdx? (fun c => c == '.') p.reverse) with
  | none => (p, [])
  | some j =>
    let i := p.length - 1 - j
    if (p.take i).all (fun c => c == '.') then (p, [])
    else (p.take i, p.drop i)

/-- The suffixes accepted by pattern 1, the regex
`v` `(\d` `{8})(\d` `{4})?([a-zA-Z])?$` matched against the end of the
name: a `v` followed by 8 or 12 digits, optionally followed by one
alphabetic character. -/
def isDateToken (s : List Char) : Bool :=
  match s with
  | c :: rest =>
    c == 'v' &&
    (if rest.length = 8 ∨ rest.length = 12 then rest.all Char.isDigit
     else if rest.length = 9 ∨ rest.length = 13 then
       rest.dropLast.all Char.isDigit &&
         (match rest.getLast? with
          | some c2 => c2.isAlpha
          | none => false)
     else false)
  | [] => false

/-- The suffixes accepted by pattern 2, the regex `_v` `(\d+)$`:
an underscore, a `v`, and one or more digits. -/
def isSeqToken (s : List Char) : Bool :=
  match s with
  | c1 :: c2 :: rest =>
    c1 == '_' && c2 == 'v' && !rest.isEmpty && rest.all Char.isDigit
  | _ => false

/-- `re.search` with an end-anchored pattern: scan start positions
left to right and return, for the first position whose whole suffix is
accepted by the token predicate, the characters before it and the
suffix (the leftmost, i.e. longest, matching suffix). -/
def findTokenStart (tok : List Char → Bool) : List Char → Option (List Char × List Char)
  | [] => none
  | c :: rest =>
    if tok (c :: rest) then some ([], c :: rest)
    else (findTokenStart tok rest).map fun p => (c :: p.1, p.2)

/-- Result of `parse_filename`: base name, optional raw version token,
extension. -/
structure ParsedName where
  base : List Char
  version : Option (List Char)
  ext : List Char
deriving DecidableEq, Repr

/-- `parse_filename`: strip the extension, try the date pattern, then
the sequence pattern, else report no version. -/
def parse_filename (filename : List Char) : ParsedName :=
  match findTokenStart isDateToken (splitext filename).1 with
  | some bt => ⟨bt.1, some bt.2, (splitext filename).2⟩
  | none =>
    match findTokenStart isSeqToken (splitext filename).1 with
    | some bt => ⟨bt.1, some bt.2, (splitext filename).2⟩
    | none => ⟨(splitext filename).1, none, (splitext filename).2⟩

/-- One grouped file: its filename paired with its parsed version. -/
abbrev FileEntry := FName × VersionInfo

/-- Append a value to the group of `key` in an insertion-ordered
association list (a Python dict of lists). -/
def addToGroup (groups : List (FName × List FileEntry)) (key : FName) (v : FileEntry) :
    List (FName × List FileEntry) :=
  match groups with
  | [] => [(key, [v])]
  | (k, vs) :: rest =>
    if k = key then (k, vs ++ [v]) :: rest
    else (k, vs) :: addToGroup rest key v

/-- One step of the scan loop of `find_latest_versions`: parse the
filename; a classified version joins its base-name group, a
classification failure only skips that file with a warning, and a file
without a version token goes to the unversioned list. -/
def scanStep (st : List (FName × List FileEntry) × List FName) (f : FName) :
    List (FName × List FileEntry) × List FName :=
  let r := parse_filename f
  match r.version with
  | some t =>
    match classify t with
    | .ok vi => (addToGroup st.1 r.base (f, vi), st.2)
    | .error _ => st
  | none => (st.1, st.2 ++ [f])

/-- The error raised when a base-name group mixes the two version
families. -/
inductive ScanError where
  | mixedVersionFamilies (base : FName)
deriving DecidableEq, Repr

/-- The mixed-version-type check of `find_latest_versions`: the first
group, in insertion order, containing both a date version and a
numeric version. -/
def findMixed : List (FName × List FileEntry) → Option FName
  | [] => none
  | (b, es) :: rest =>
    if (es.any fun e => e.2.isDate) && (es.any fun e => e.2.isSeq) then some b
    else findMixed rest

/-- `find_latest_versions`, on the list of filenames the glob step
yields for one directory: group the files by base name, then raise on
the first mixed-family group. -/
def find_latest_versions (files : List FName) :
    Except ScanError (List (FName × List FileEntry) × List FName) :=
  let st := files.foldl scanStep ([], [])
  match findMixed st.1 with
  | some b => .error (.mixedVersionFamilies b)
  | none => .ok st

/-- Stable descending insertion: `x` is placed before the first
element strictly below it, so elements comparing equal to `x` stay
before it. -/
def insertD (lt : α → α → Bool) (x : α) : List α → List α
  | [] => [x]
  | y :: ys => if lt y x then x :: y :: ys else y :: insertD lt x ys

/-- The effect of `list.sort(key=..., reverse=True)`: a stable
descending sort (Python's sort is stable also under `reverse=True`,
so any stable descending sort computes the same list when the
comparison is a strict weak order, as it is on every single-family
group). -/
def sortD (lt : α → α → Bool) (l : List α) : List α :=
  l.foldl (fun acc x => insertD lt x acc) []

/-- The sort key of `delete_old_versions`: `lambda x: x[1]`, i.e. the
entries compare by version alone. -/
def entryLt (x y : FileEntry) : Bool := vltB x.2 y.2

/-- The keep/delete partition computed for one base-name group. -/
structure RetentionPlan where
  keepList : List FileEntry
  deleteList : List FileEntry
deriving DecidableEq, Repr

/-- The per-group body of `delete_old_versions`: sort the group by
version, newest first; keep the first `keepCount` entries and delete
the rest. -/
def planGroup (es : List FileEntry) (keepCount : Nat) : RetentionPlan :=
  ⟨(sortD entryLt es).take keepCount, (sortD entryLt es).drop keepCount⟩

/-- `delete_old_versions` for one directory (the printing and the
size queries are I/O and are omitted): scan and group the files, then
plan every group.  A `MixedVersionFamilies` error propagates. -/
def delete_old_versions (files : List FName) (keepCount : Nat) :
    Except ScanError (List (FName × RetentionPlan) × List FName) :=
  (find_latest_versions files).map fun gu =>
    (gu.1.map fun g => (g.1, planGroup g.2 keepCount), gu.2)

/-- The directory loop of `main` over the result of
`get_subdirectories`, restricted to the scanning/planning work (the
interactive confirmation and the physical deletion are external):
directories are processed in order, and an exception from the scan of
one directory is not caught anywhere, so it aborts the whole loop. -/
def runDirs (dirs : List (List FName)) (keepCount : Nat) :
    Except ScanError (List (List (FName × RetentionPlan) × List FName)) :=
  match dirs with
  | [] => .ok []
  | d :: rest =>
    match delete_old_versions d keepCount with
    | .error e => .error e
    | .ok r =>
      match runDirs rest keepCount with
      | .error e => .error e
      | .ok rs => .ok (r :: rs)

/-! Lemmas about the stable descending insertion sort. -/

theorem insertD_perm (lt : α → α → Bool) (x : α) (l : List α) :
    (insertD lt x l).Perm (x :: l) := by
  induction l with
  | nil => exact List.Perm.refl _
  | cons y ys ih =>
    by_cases h : lt y x = true
    · simp only [insertD, if_pos h]
      exact List.Perm.refl _
    · simp only [insertD, if_neg h]
      exact (ih.cons y).trans (List.Perm.swap x y ys)

theorem mem_insertD (lt : α → α → Bool) (x a : α) (l : List α) :
    a ∈ insertD lt x l ↔ a = x ∨ a ∈ l := by
  rw [(insertD_perm lt x l).mem_iff, List.mem_cons]

theorem foldl_insertD_perm (lt : α → α → Bool) (l acc : List α) :
    (l.foldl (fun a x => insertD lt x a) acc).Perm (acc ++ l) := by
  induction l generalizing acc with
  | nil => simpa using List.Perm.refl acc
  | cons x xs ih =>
    have h1 : (xs.foldl (fun a x => insertD lt x a) (insertD lt x acc)).Perm
        (insertD lt x acc ++ xs) := ih _
    have h2 : (insertD lt x acc ++ xs).Perm ((x :: acc) ++ xs) :=
      (insertD_perm lt x acc).append_right xs
    exact (h1.trans h2).trans List.perm_middle.symm

theorem sortD_perm (lt : α → α → Bool) (l : List α) : (sortD lt l).Perm l := by
  simpa [sortD] using foldl_insertD_perm lt l []

theorem sortD_length (lt : α → α → Bool) (l : List α) :
    (sortD lt l).length = l.length :=
  (sortD_perm lt l).length_eq

theorem insertD_pairwise (lt : α → α → Bool)
    (hasym : ∀ a b, lt a b = true → lt b a = false)
    (htrans : ∀ a b c, lt a b = true → lt b c = true → lt a c = true)
    (x : α) (l : List α) (hl : l.Pairwise fun a b => lt a b = false) :
    (insertD lt x l).Pairwise fun a b => lt a b = false := by
  induction l with
  | nil => simp [insertD]
  | cons y ys ih =>
    rcases List.pairwise_cons.mp hl with ⟨hy, hys⟩
    by_cases h : lt y x = true
    · simp only [insertD, if_pos h]
      refine List.Pairwise.cons ?_ hl
      intro z hz
      rcases List.mem_cons.mp hz with rfl | hz2
      · exact hasym _ _ h
      · cases hxz : lt x z with
        | false => rfl
        | true => exact absurd (htrans y x z h hxz) (by simp [hy z hz2])
    · have h2 : lt y x = false := by simpa using h
      simp only [insertD, if_neg h]
      refine List.Pairwise.cons ?_ (ih hys)
      intro z hz
      rcases (mem_insertD lt x z ys).mp hz with rfl | hz2
      · exact h2
      · exact hy z hz2

theorem foldl_insertD_pairwise (lt : α → α → Bool)
    (hasym : ∀ a b, lt a b = true → lt b a = false)
    (htrans : ∀ a b c, lt a b = true → lt b c = true → lt a c = true)
    (l acc : List α) (hacc : acc.Pairwise fun a b => lt a b = false) :
    (l.foldl (fun a x => insertD lt x a) acc).Pairwise fun a b => lt a b = false := by
  induction l generalizing acc with
  | nil => exact hacc
  | cons x xs ih => exact ih _ (insertD_pairwise lt hasym htrans x acc hacc)

theorem sortD_pairwise (lt : α → α → Bool)
    (hasym : ∀ a b, lt a b = true → lt b a = false)
    (htrans : ∀ a b c, lt a b = true → lt b c = true → lt a c = true)
    (l : List α) :
    (sortD lt l).Pairwise fun a b => lt a b = false :=
  foldl_insertD_pairwise lt hasym htrans l [] (List.Pairwise.nil)

theorem filter_insertD_neg (lt : α → α → Bool) (p : α → Bool) (x : α)
    (hx : p x = false) (l : List α) :
    (insertD lt x l).filter p = l.filter p := by
  induction l with
  | nil => simp [insertD, hx]
  | cons y ys ih =>
    by_cases h : lt y x = true
    · simp [insertD, if_pos h, List.filter_cons, hx]
    · simp only [insertD, if_neg h, List.filter_cons]
      rw [ih]

theorem filter_insertD_pos (lt : α → α → Bool) (p : α → Bool)
    (htie : ∀ a b, p a = true → p b = true → lt a b = false)
    (hcong : ∀ c a b, p a = true → p b = true → lt c a = lt c b)
    (x : α) (hx : p x = true) (l : List α)
    (hl : l.Pairwise fun a b => lt a b = false) :
    (insertD lt x l).filter p = l.filter p ++ [x] := by
  induction l with
  | nil => simp [insertD, hx]
  | cons y ys ih =>
    rcases List.pairwise_cons.mp hl with ⟨hy, hys⟩
    by_cases h : lt y x = true
    · have hfy : p y = false := by
        cases hpy : p y with
        | false => rfl
        | true => exact absurd h (by simp [htie y x hpy hx])
      have hfys : ys.filter p = [] := by
        rw [List.filter_eq_nil_iff]
        intro z hz
        cases hpz : p z with
        | false => simp
        | true =>
          have hyy : lt y z = lt y x := hcong y z x hpz hx
          rw [hy z hz] at hyy
          simp [h] at hyy
      simp [insertD, if_pos h, List.filter_cons, hfy, hx, hfys]
    · simp only [insertD, if_neg h, List.filter_cons]
      rw [ih hys]
      cases hpy : p y with
      | false => simp
      | true => simp

theorem sortD_filter (lt : α → α → Bool) (p : α → Bool)
    (hasym : ∀ a b, lt a b = true → lt b a = false)
    (htrans : ∀ a b c, lt a b = true → lt b c = true → lt a c = true)
    (htie : ∀ a b, p a = true → p b = true → lt a b = false)
    (hcong : ∀ c a b, p a = true → p b = true → lt c a = lt c b)
    (l : List α) :
    (sortD lt l).filter p = l.filter p := by
  suffices h : ∀ (l acc : List α), (acc.Pairwise fun a b => lt a b = false) →
      (l.foldl (fun a x => insertD lt x a) acc).filter p =
        acc.filter p ++ l.filter p by
    simpa [sortD] using h l [] List.Pairwise.nil
  intro l
  induction l with
  | nil => intro acc _; simp
  | cons x xs ih =>
    intro acc hacc
    have step : (List.foldl (fun a x => insertD lt x a) acc (x :: xs)) =
        List.foldl (fun a x => insertD lt x a) (insertD lt x acc) xs := rfl
    rw [step, ih _ (insertD_pairwise lt hasym htrans x acc hacc)]
    cases hpx : p x with
    | false =>
      rw [filter_insertD_neg lt p x hpx acc]
      simp [List.filter_cons, hpx]
    | true =>
      rw [filter_insertD_pos lt p htie hcong x hpx acc hacc]
      simp [List.filter_cons, hpx]

/-! Order-theoretic facts about the version comparison. -/

theorem dateLt_asymm (a b : PyDate) (h : dateLt a b = true) : dateLt b a = false := by
  simp only [dateLt, Bool.or_eq_true, Bool.and_eq_true, decide_eq_true_eq,
    beq_iff_eq, Bool.or_eq_false_iff, Bool.and_eq_false_iff,
    decide_eq_false_iff_not, beq_eq_false_iff_ne] at h ⊢
  omega

theorem dateLt_trans (a b c : PyDate) (h1 : dateLt a b = true)
    (h2 : dateLt b c = true) : dateLt a c = true := by
  simp only [dateLt, Bool.or_eq_true, Bool.and_eq_true, decide_eq_true_eq,
    beq_iff_eq] at h1 h2 ⊢
  omega

theorem dateLt_irrefl (a : PyDate) : dateLt a a = false := by
  simp [dateLt]

theorem letterLt_asymm (a b : Option Char) (h : letterLt a b = true) :
    letterLt b a = false := by
  cases a <;> cases b <;> simp_all [letterLt] <;> omega

theorem letterLt_trans (a b c : Option Char) (h1 : letterLt a b = true)
    (h2 : letterLt b c = true) : letterLt a c = true := by
  cases a <;> cases b <;> cases c <;> simp_all [letterLt] <;> omega

theorem vltB_dd (d1 d2 : PyDate) (l1 l2 : Option Char) :
    vltB (.dateV d1 l1) (.dateV d2 l2) =
      if d1 = d2 then letterLt l1 l2 else dateLt d1 d2 := by
  by_cases h : d1 = d2 <;> simp [vltB, vlt, h]

theorem vltB_ss (m n : Nat) : vltB (.seqV m) (.seqV n) = decide (m < n) := rfl

theorem vltB_ds (d : PyDate) (l : Option Char) (n : Nat) :
    vltB (.dateV d l) (.seqV n) = false := rfl

theorem vltB_sd (d : PyDate) (l : Option Char) (n : Nat) :
    vltB (.seqV n) (.dateV d l) = false := rfl

theorem vltB_asymm (a b : VersionInfo) (h : vltB a b = true) : vltB b a = false := by
  cases a with
  | dateV d1 l1 =>
    cases b with
    | dateV d2 l2 =>
      rw [vltB_dd] at h
      rw [vltB_dd]
      by_cases hd : d1 = d2
      · subst hd
        rw [if_pos rfl] at h
        rw [if_pos rfl]
        exact letterLt_asymm _ _ h
      · rw [if_neg hd] at h
        rw [if_neg (fun hc => hd hc.symm)]
        exact dateLt_asymm _ _ h
    | seqV n => exact absurd h (by simp [vltB_ds])
  | seqV m =>
    cases b with
    | dateV d l => exact absurd h (by simp [vltB_sd])
    | seqV n =>
      rw [vltB_ss] at h
      rw [vltB_ss]
      simp only [decide_eq_true_eq] at h
      simp only [decide_eq_false_iff_not]
      omega

theorem vltB_trans (a b c : VersionInfo) (h1 : vltB a b = true)
    (h2 : vltB b c = true) : vltB a c = true := by
  cases a with
  | dateV d1 l1 =>
    cases b with
    | dateV d2 l2 =>
      cases c with
      | dateV d3 l3 =>
        rw [vltB_dd] at h1 h2
        rw [vltB_dd]
        by_cases hd12 : d1 = d2
        · subst hd12
          rw [if_pos rfl] at h1
          by_cases hd13 : d1 = d3
          · subst hd13
            rw [if_pos rfl] at h2
            rw [if_pos rfl]
            exact letterLt_trans l1 l2 l3 h1 h2
          · rw [if_neg hd13] at h2
            rw [if_neg hd13]
            exact h2
        · rw [if_neg hd12] at h1
          by_cases hd23 : d2 = d3
          · subst hd23
            rw [if_neg hd12]
            exact h1
          · rw [if_neg hd23] at h2
            have h13 := dateLt_trans d1 d2 d3 h1 h2
            have hne : d1 ≠ d3 := by
              intro he
              subst he
              have hf := dateLt_asymm d1 d2 h1
              rw [hf] at h2
              exact Bool.false_ne_true h2
            rw [if_neg hne]
            exact h13
      | seqV n => exact absurd h2 (by simp [vltB_ds])
    | seqV n => exact absurd h1 (by simp [vltB_ds])
  | seqV m =>
    cases b with
    | dateV d2 l2 => exact absurd h1 (by simp [vltB_sd])
    | seqV n =>
      cases c with
      | dateV d3 l3 => exact absurd h2 (by simp [vltB_sd])
      | seqV k =>
        rw [vltB_ss] at h1 h2
        rw [vltB_ss]
        simp only [decide_eq_true_eq] at h1 h2 ⊢
        omega

theorem vltB_irrefl (a : VersionInfo) : vltB a a = false := by
  cases a with
  | dateV d l =>
    rw [vltB_dd, if_pos rfl]
    cases l <;> simp [letterLt]
  | seqV n => simp [vltB_ss]

theorem entryLt_asymm (a b : FileEntry) (h : entryLt a b = true) :
    entryLt b a = false := vltB_asymm a.2 b.2 h

theorem entryLt_trans (a b c : FileEntry) (h1 : entryLt a b = true)
    (h2 : entryLt b c = true) : entryLt a c = true := vltB_trans a.2 b.2 c.2 h1 h2

/-! Character-class facts: the regex classes [0-9] and [a-zA-Z] are
disjoint. -/

theorem isDigit_not_isAlpha (c : Char) (h : c.isDigit = true) : c.isAlpha = false := by
  cases ha : c.isAlpha with
  | false => rfl
  | true =>
    have hd : 48 ≤ c.toNat ∧ c.toNat ≤ 57 := by
      simpa [Char.isDigit, Char.le_def, Char.toNat, UInt32.le_def, Fin.le_def] using h
    have hA : (65 ≤ c.toNat ∧ c.toNat ≤ 90) ∨ (97 ≤ c.toNat ∧ c.toNat ≤ 122) := by
      simpa [Char.isAlpha, Char.isUpper, Char.isLower, Char.le_def, Char.toNat,
        UInt32.le_def, Fin.le_def] using ha
    omega

theorem isAlpha_not_isDigit (c : Char) (h : c.isAlpha = true) : c.isDigit = false := by
  cases hd : c.isDigit with
  | false => rfl
  | true =>
    have h1 : 48 ≤ c.toNat ∧ c.toNat ≤ 57 := by
      simpa [Char.isDigit, Char.le_def, Char.toNat, UInt32.le_def, Fin.le_def] using hd
    have h2 : (65 ≤ c.toNat ∧ c.toNat ≤ 90) ∨ (97 ≤ c.toNat ∧ c.toNat ≤ 122) := by
      simpa [Char.isAlpha, Char.isUpper, Char.isLower, Char.le_def, Char.toNat,
        UInt32.le_def, Fin.le_def] using h
    omega

/-! Facts about the two token grammars and the suffix search. -/

theorem findTokenStart_eq (tok : List Char → Bool) (n b t : List Char)
    (h : findTokenStart tok n = some (b, t)) : tok t = true ∧ n = b ++ t := by
  induction n generalizing b t with
  | nil => exact absurd h (by simp [findTokenStart])
  | cons c rest ih =>
    by_cases hc : tok (c :: rest) = true
    · rw [findTokenStart, if_pos hc] at h
      obtain ⟨rfl, rfl⟩ : b = [] ∧ t = c :: rest := by
        constructor <;> cases h <;> rfl
      exact ⟨hc, rfl⟩
    · rw [findTokenStart, if_neg hc] at h
      cases hfind : findTokenStart tok rest with
      | none =>
        rw [hfind] at h
        exact absurd h (by simp)
      | some p =>
        rw [hfind] at h
        have h2 : (c :: p.1, p.2) = (b, t) := by simpa using h
        have hb : b = c :: p.1 := (congrArg Prod.fst h2).symm
        have ht : t = p.2 := (congrArg Prod.snd h2).symm
        subst hb
        subst ht
        rcases ih p.1 p.2 (by rw [hfind]) with ⟨htok, hsplit⟩
        exact ⟨htok, by rw [List.cons_append, ← hsplit]⟩

theorem isDateToken_last_two_alpha (w : List Char) (x y : Char)
    (hx : x.isAlpha = true) (hy : y.isAlpha = true) :
    isDateToken (w ++ [x, y]) = false := by
  cases w with
  | nil => simp [isDateToken]
  | cons c w2 =>
    simp only [List.cons_append, isDateToken]
    by_cases h1 : (w2 ++ [x, y]).length = 8 ∨ (w2 ++ [x, y]).length = 12
    · rw [if_pos h1]
      have hall : (w2 ++ [x, y]).all Char.isDigit = false := by
        simp [List.all_append, isAlpha_not_isDigit y hy]
      rw [hall]
      simp
    · rw [if_neg h1]
      by_cases h2 : (w2 ++ [x, y]).length = 9 ∨ (w2 ++ [x, y]).length = 13
      · rw [if_pos h2]
        have hdl : (w2 ++ [x, y]).dropLast = w2 ++ [x] := by
          rw [show ([x, y] : List Char) = [x] ++ [y] by rfl, ← List.append_assoc]
          exact List.dropLast_concat
        have hall : (w2 ++ [x, y]).dropLast.all Char.isDigit = false := by
          rw [hdl]
          simp [List.all_append, isAlpha_not_isDigit x hx]
        rw [hall]
        simp
      · rw [if_neg h2]
        simp

theorem isDateToken_single (y : Char) : isDateToken [y] = false := by
  simp [isDateToken]

theorem isSeqToken_last_alpha (w : List Char) (y : Char)
    (hy : y.isAlpha = true) : isSeqToken (w ++ [y]) = false := by
  cases w with
  | nil => simp [isSeqToken]
  | cons c w2 =>
    cases w2 with
    | nil => simp [isSeqToken]
    | cons c2 w3 =>
      simp only [List.cons_append, isSeqToken]
      simp [List.all_append, isAlpha_not_isDigit y hy]

theorem isSeqToken_single (y : Char) : isSeqToken [y] = false := by
  simp [isSeqToken]

theorem findTokenStart_none_last_two (tok : List Char → Bool) (u : List Char)
    (x y : Char) (hall : ∀ w, tok (w ++ [x, y]) = false)
    (h1 : tok [y] = false) :
    findTokenStart tok (u ++ [x, y]) = none := by
  induction u with
  | nil =>
    have hxy : tok [x, y] = false := by simpa using hall []
    simp [findTokenStart, hxy, h1]
  | cons c u2 ih =>
    have hc : tok (c :: (u2 ++ [x, y])) = false := by simpa using hall (c :: u2)
    simp [findTokenStart, hc, ih]

theorem splitext_no_dot (p : List Char)
    (h : ∀ c ∈ p, (c == '.') = false) : splitext p = (p, []) := by
  unfold splitext
  have hidx : List.findIdx? (fun c => c == '.') p.reverse = none := by
    rw [List.findIdx?_eq_none_iff]
    intro c hc
    exact h c (List.mem_reverse.mp hc)
  rw [hidx]

/-- Claim C4's hypothesis shape specialised to the underlying fact the
parser uses: a stripped name whose final two characters are alphabetic
matches neither pattern. -/
theorem parse_no_version_of_last_two_alpha (filename u : List Char) (x y : Char)
    (hx : x.isAlpha = true) (hy : y.isAlpha = true)
    (hname : (splitext filename).1 = u ++ [x, y]) :
    (parse_filename filename).version = none := by
  have hdate : findTokenStart isDateToken ((splitext filename).1) = none := by
    rw [hname]
    exact findTokenStart_none_last_two isDateToken u x y
      (fun w => isDateToken_last_two_alpha w x y hx hy) (isDateToken_single y)
  have hseq : findTokenStart isSeqToken ((splitext filename).1) = none := by
    rw [hname]
    refine findTokenStart_none_last_two isSeqToken u x y ?_ (isSeqToken_single y)
    intro w
    rw [show (w ++ [x, y] : List Char) = (w ++ [x]) ++ [y] by simp]
    exact isSeqToken_last_alpha (w ++ [x]) y hy
  simp [parse_filename, hdate, hseq]

theorem isDateToken_underscore (w ds : List Char) :
    isDateToken (w ++ '_' :: 'v' :: ds) = false := by
  cases w with
  | nil => simp [isDateToken]
  | cons c w2 =>
    simp only [List.cons_append, isDateToken]
    by_cases h1 : (w2 ++ '_' :: 'v' :: ds).length = 8 ∨ (w2 ++ '_' :: 'v' :: ds).length = 12
    · rw [if_pos h1]
      have hall : (w2 ++ '_' :: 'v' :: ds).all Char.isDigit = false := by
        simp [List.all_append, List.all_cons]
      rw [hall]
      simp
    · rw [if_neg h1]
      by_cases h2 : (w2 ++ '_' :: 'v' :: ds).length = 9 ∨ (w2 ++ '_' :: 'v' :: ds).length = 13
      · rw [if_pos h2]
        rcases List.eq_nil_or_concat' ds with rfl | ⟨L, b, rfl⟩
        · have hdl : (w2 ++ '_' :: 'v' :: ([] : List Char)).dropLast = w2 ++ ['_'] := by
            rw [show ('_' :: 'v' :: ([] : List Char)) = ['_'] ++ ['v'] by rfl,
              ← List.append_assoc]
            exact List.dropLast_concat
          have hall : (w2 ++ '_' :: 'v' :: ([] : List Char)).dropLast.all Char.isDigit = false := by
            rw [hdl]
            simp [List.all_append]
          rw [hall]
          simp
        · have hall : (w2 ++ '_' :: 'v' :: (L ++ [b])).dropLast.all Char.isDigit = false := by
            rw [show w2 ++ '_' :: 'v' :: (L ++ [b]) = (w2 ++ '_' :: 'v' :: L) ++ [b] by simp,
              List.dropLast_concat]
            simp [List.all_append, List.all_cons]
          rw [hall]
          simp
      · rw [if_neg h2]
        simp

theorem findTokenStart_underscore_date (p ds : List Char)
    (h8 : ds.length = 8) (hd : ds.all Char.isDigit = true) :
    findTokenStart isDateToken (p ++ '_' :: 'v' :: ds) = some (p ++ ['_'], 'v' :: ds) := by
  induction p with
  | nil =>
    have h1 : isDateToken ('_' :: 'v' :: ds) = false := by
      simpa using isDateToken_underscore [] ds
    have h2 : isDateToken ('v' :: ds) = true := by
      simp [isDateToken, h8, hd]
    simp [findTokenStart, h1, h2]
  | cons c p2 ih =>
    have hc : isDateToken (c :: (p2 ++ '_' :: 'v' :: ds)) = false := by
      simpa using isDateToken_underscore (c :: p2) ds
    simp [findTokenStart, hc, ih]

theorem isSeqToken_underscore_long (c : Char) (w ds : List Char) :
    isSeqToken ((c :: w) ++ '_' :: 'v' :: ds) = false := by
  cases w with
  | nil => simp [isSeqToken]
  | cons c2 w3 =>
    simp only [List.cons_append, isSeqToken]
    have hall : (w3 ++ '_' :: 'v' :: ds).all Char.isDigit = false := by
      simp [List.all_append, List.all_cons]
    rw [hall]
    simp

theorem findTokenStart_underscore_seq (p ds : List Char)
    (hne : ds ≠ []) (hd : ds.all Char.isDigit = true) :
    findTokenStart isSeqToken (p ++ '_' :: 'v' :: ds) = some (p, '_' :: 'v' :: ds) := by
  induction p with
  | nil =>
    have h1 : isSeqToken ('_' :: 'v' :: ds) = true := by
      cases ds with
      | nil => exact absurd rfl hne
      | cons a l => simp [isSeqToken, hd]
      -- wait hd mentions ds
    simp [findTokenStart, h1]
  | cons c p2 ih =>
    have hc : isSeqToken (c :: (p2 ++ '_' :: 'v' :: ds)) = false := by
      simpa using isSeqToken_underscore_long c p2 ds
    simp [findTokenStart, hc, ih]

/-! Evaluation of the classifier on the token shapes the parser can
produce. -/

theorem strptime8_cases (ds : List Char) :
    (∃ d, strptime8 ds = .ok d) ∨ strptime8 ds = .error .invalidDate := by
  cases h : ds.all Char.isDigit && validDate (digitsToNat (ds.take 4))
      (digitsToNat ((ds.drop 4).take 2)) (digitsToNat (ds.drop 6)) with
  | true =>
    exact .inl ⟨⟨digitsToNat (ds.take 4), digitsToNat ((ds.drop 4).take 2),
      digitsToNat (ds.drop 6), 0, 0⟩, by simp [strptime8, h]⟩
  | false => exact .inr (by simp [strptime8, h])

theorem strptime12_cases (ds : List Char) :
    (∃ d, strptime12 ds = .ok d) ∨ strptime12 ds = .error .invalidDate := by
  cases h : ds.all Char.isDigit && validDate (digitsToNat (ds.take 4))
      (digitsToNat ((ds.drop 4).take 2)) (digitsToNat ((ds.drop 6).take 2)) &&
      validTime (digitsToNat ((ds.drop 8).take 2)) (digitsToNat (ds.drop 10)) with
  | true =>
    exact .inl ⟨⟨digitsToNat (ds.take 4), digitsToNat ((ds.drop 4).take 2),
      digitsToNat ((ds.drop 6).take 2), digitsToNat ((ds.drop 8).take 2),
      digitsToNat (ds.drop 10)⟩, by simp [strptime12, h]⟩
  | false => exact .inr (by simp [strptime12, h])

theorem classify_concat_noletter8 (ys : List Char) (c2 : Char)
    (hna : c2.isAlpha = false) (hlen : ys.length = 7) :
    classify ('v' :: (ys ++ [c2])) = (strptime8 (ys ++ [c2])).map fun d => .dateV d none := by
  have hgl : ('v' :: (ys ++ [c2])).getLast? = some c2 := by
    rw [← List.cons_append]
    exact List.getLast?_concat _
  simp [classify, hgl, hna, hlen]

theorem classify_concat_noletter12 (ys : List Char) (c2 : Char)
    (hna : c2.isAlpha = false) (hlen : ys.length = 11) :
    classify ('v' :: (ys ++ [c2])) = (strptime12 (ys ++ [c2])).map fun d => .dateV d none := by
  have hgl : ('v' :: (ys ++ [c2])).getLast? = some c2 := by
    rw [← List.cons_append]
    exact List.getLast?_concat _
  simp [classify, hgl, hna, hlen]

theorem classify_concat_letter8 (ys : List Char) (c2 : Char)
    (hna : c2.isAlpha = true) (hlen : ys.length = 8) :
    classify ('v' :: (ys ++ [c2])) = (strptime8 ys).map fun d => .dateV d (some c2) := by
  have hgl : ('v' :: (ys ++ [c2])).getLast? = some c2 := by
    rw [← List.cons_append]
    exact List.getLast?_concat _
  have hdl : ('v' :: (ys ++ [c2])).dropLast = 'v' :: ys := by
    rw [← List.cons_append]
    exact List.dropLast_concat
  simp [classify, hgl, hna, hdl, hlen]

theorem classify_concat_letter12 (ys : List Char) (c2 : Char)
    (hna : c2.isAlpha = true) (hlen : ys.length = 12) :
    classify ('v' :: (ys ++ [c2])) = (strptime12 ys).map fun d => .dateV d (some c2) := by
  have hgl : ('v' :: (ys ++ [c2])).getLast? = some c2 := by
    rw [← List.cons_append]
    exact List.getLast?_concat _
  have hdl : ('v' :: (ys ++ [c2])).dropLast = 'v' :: ys := by
    rw [← List.cons_append]
    exact List.dropLast_concat
  simp [classify, hgl, hna, hdl, hlen]

theorem classify_seq_digits (rest : List Char) (hne : rest ≠ [])
    (hd : rest.all Char.isDigit = true) :
    classify ('_' :: 'v' :: rest) = .ok (.seqV (digitsToNat rest)) := by
  simp [classify, pyIntDigits, hne, hd]

theorem classify_date_token (t : List Char) (h : isDateToken t = true) :
    (∃ vi, classify t = .ok vi) ∨ classify t = .error .invalidDate := by
  cases t with
  | nil => exact absurd h (by simp [isDateToken])
  | cons c rest =>
    simp only [isDateToken, Bool.and_eq_true, beq_iff_eq] at h
    rcases h with ⟨rfl, h⟩
    by_cases h1 : rest.length = 8 ∨ rest.length = 12
    · rw [if_pos h1] at h
      rcases List.eq_nil_or_concat' rest with rfl | ⟨ys, c2, rfl⟩
      · simp at h1
      · have hc2 : c2.isDigit = true := List.all_eq_true.mp h c2 (by simp)
        have hna : c2.isAlpha = false := isDigit_not_isAlpha c2 hc2
        have hylen : ys.length = 7 ∨ ys.length = 11 := by
          rcases h1 with h1 | h1 <;> simp [List.length_append] at h1 <;> omega
        rcases hylen with hy | hy
        · rw [classify_concat_noletter8 ys c2 hna hy]
          rcases strptime8_cases (ys ++ [c2]) with ⟨d, hd⟩ | hd
          · rw [hd]
            exact .inl ⟨_, rfl⟩
          · rw [hd]
            exact .inr rfl
        · rw [classify_concat_noletter12 ys c2 hna hy]
          rcases strptime12_cases (ys ++ [c2]) with ⟨d, hd⟩ | hd
          · rw [hd]
            exact .inl ⟨_, rfl⟩
          · rw [hd]
            exact .inr rfl
    · rw [if_neg h1] at h
      by_cases h2 : rest.length = 9 ∨ rest.length = 13
      · rw [if_pos h2] at h
        rcases List.eq_nil_or_concat' rest with rfl | ⟨ys, c2, rfl⟩
        · simp at h2
        · rw [Bool.and_eq_true] at h
          rcases h with ⟨hdrop, hlast⟩
          rw [List.getLast?_concat] at hlast
          have hla : c2.isAlpha = true := hlast
          have hy : ys.length = 8 ∨ ys.length = 12 := by
            rcases h2 with h2 | h2 <;> simp [List.length_append] at h2 <;> omega
          rcases hy with hy | hy
          · rw [classify_concat_letter8 ys c2 hla hy]
            rcases strptime8_cases ys with ⟨d, hd⟩ | hd
            · rw [hd]
              exact .inl ⟨_, rfl⟩
            · rw [hd]
              exact .inr rfl
          · rw [classify_concat_letter12 ys c2 hla hy]
            rcases strptime12_cases ys with ⟨d, hd⟩ | hd
            · rw [hd]
              exact .inl ⟨_, rfl⟩
            · rw [hd]
              exact .inr rfl
      · rw [if_neg h2] at h
        exact absurd h (by simp)

theorem classify_seq_token (t : List Char) (h : isSeqToken t = true) :
    ∃ n, classify t = .ok (.seqV n) := by
  cases t with
  | nil => exact absurd h (by simp [isSeqToken])
  | cons c1 t2 =>
    cases t2 with
    | nil => exact absurd h (by simp [isSeqToken])
    | cons c2 rest =>
      simp only [isSeqToken, Bool.and_eq_true, beq_iff_eq] at h
      obtain ⟨⟨⟨rfl, rfl⟩, hne⟩, hd⟩ := h
      have hne2 : rest ≠ [] := by
        cases rest
        · simp at hne
        · simp
      exact ⟨_, classify_seq_digits rest hne2 hd⟩

theorem parse_token_classify (f b t e : List Char)
    (h : parse_filename f = ⟨b, some t, e⟩) :
    (∃ vi, classify t = .ok vi) ∨ classify t = .error .invalidDate := by
  unfold parse_filename at h
  cases hdate : findTokenStart isDateToken (splitext f).1 with
  | some bt =>
    rw [hdate] at h
    simp only [ParsedName.mk.injEq] at h
    rcases h with ⟨hb, hv, he⟩
    have ht : t = bt.2 := by
      cases hv
      rfl
    subst ht
    exact classify_date_token _ (findTokenStart_eq _ _ _ _ (by rw [hdate])).1
  | none =>
    rw [hdate] at h
    cases hseq : findTokenStart isSeqToken (splitext f).1 with
    | some bt =>
      rw [hseq] at h
      simp only [ParsedName.mk.injEq] at h
      rcases h with ⟨hb, hv, he⟩
      have ht : t = bt.2 := by
        cases hv
        rfl
      subst ht
      rcases classify_seq_token _ (findTokenStart_eq _ _ _ _ (by rw [hseq])).1 with ⟨n, hn⟩
      exact .inl ⟨_, hn⟩
    | none =>
      rw [hseq] at h
      simp only [ParsedName.mk.injEq] at h
      exact absurd h.2.1 (by simp)

/-! Decimal representation of a natural number, for the claim that
sequence numbering handles every N. -/

/-- The decimal digit character of a value below ten. -/
def digitChar (d : Nat) : Char := Char.ofNat (48 + d)

/-- Build the decimal representation of n in front of acc. -/
def natReprAux (n : Nat) (acc : List Char) : List Char :=
  if n < 10 then digitChar n :: acc
  else natReprAux (n / 10) (digitChar (n % 10) :: acc)
termination_by n
decreasing_by exact Nat.div_lt_self (by omega) (by omega)

/-- The decimal representation of a natural number, without sign or
leading zeros (Python `str` of a non-negative int). -/
def natRepr (n : Nat) : List Char := natReprAux n []

theorem digitChar_isDigit (d : Nat) (h : d < 10) : (digitChar d).isDigit = true := by
  interval_cases d <;> decide

theorem digitVal_digitChar (d : Nat) (h : d < 10) : digitVal (digitChar d) = d := by
  interval_cases d <;> decide

theorem natReprAux_eq (n : Nat) : ∀ acc, natReprAux n acc = natRepr n ++ acc := by
  induction n using Nat.strong_induction_on with
  | _ n ih =>
    intro acc
    by_cases h : n < 10
    · rw [natReprAux.eq_def, if_pos h, natRepr, natReprAux.eq_def, if_pos h]
      rfl
    · have hlt : n / 10 < n := Nat.div_lt_self (by omega) (by omega)
      rw [natReprAux.eq_def, if_neg h, ih _ hlt]
      conv_rhs => rw [natRepr, natReprAux.eq_def, if_neg h, ih _ hlt]
      simp

theorem digitsToNat_concat (l : List Char) (c : Char) :
    digitsToNat (l ++ [c]) = 10 * digitsToNat l + digitVal c := by
  simp [digitsToNat, List.foldl_append]

theorem digitsToNat_natRepr (n : Nat) : digitsToNat (natRepr n) = n := by
  induction n using Nat.strong_induction_on with
  | _ n ih =>
    by_cases h : n < 10
    · rw [natRepr, natReprAux.eq_def, if_pos h]
      simp [digitsToNat, digitVal_digitChar n h]
    · have hlt : n / 10 < n := Nat.div_lt_self (by omega) (by omega)
      rw [natRepr, natReprAux.eq_def, if_neg h, natReprAux_eq, digitsToNat_concat,
        ih _ hlt, digitVal_digitChar _ (Nat.mod_lt n (by omega))]
      omega

theorem natRepr_all_digit (n : Nat) : (natRepr n).all Char.isDigit = true := by
  induction n using Nat.strong_induction_on with
  | _ n ih =>
    by_cases h : n < 10
    · rw [natRepr, natReprAux.eq_def, if_pos h]
      simp [digitChar_isDigit n h]
    · have hlt : n / 10 < n := Nat.div_lt_self (by omega) (by omega)
      rw [natRepr, natReprAux.eq_def, if_neg h, natReprAux_eq]
      simp [List.all_append, ih _ hlt, digitChar_isDigit _ (Nat.mod_lt n (by omega))]

theorem natRepr_ne_nil (n : Nat) : natRepr n ≠ [] := by
  by_cases h : n < 10
  · rw [natRepr, natReprAux.eq_def, if_pos h]
    simp
  · rw [natRepr, natReprAux.eq_def, if_neg h, natReprAux_eq]
    simp

theorem classify_underscore_natRepr (n : Nat) :
    classify ('_' :: 'v' :: natRepr n) = .ok (.seqV n) := by
  rw [classify_seq_digits (natRepr n) (natRepr_ne_nil n) (natRepr_all_digit n),
    digitsToNat_natRepr]

/-- An asset group whose members all belong to one version family. -/
def singleFamily (es : List FileEntry) : Prop :=
  (∀ e ∈ es, e.2.isDate = true) ∨ (∀ e ∈ es, e.2.isSeq = true)

instance (es : List FileEntry) : Decidable (singleFamily es) := by
  unfold singleFamily
  infer_instance

/-! The claims. -/

/-- C1, counterexample: for the input files a_v20240101.mov and
a_v2.mov, the scan does NOT raise MixedVersionFamilies for base name
a; instead the two files land in two different groups, keyed a_ and a,
because the date pattern leaves the underscore in the base name while
the sequence pattern consumes it. -/
theorem C1_counterexample :
    find_latest_versions ["a_v20240101.mov".toList, "a_v2.mov".toList] ≠
      .error (.mixedVersionFamilies ("a".toList)) ∧
    find_latest_versions ["a_v20240101.mov".toList, "a_v2.mov".toList] =
      .ok ([("a_".toList, [("a_v20240101.mov".toList, .dateV ⟨2024, 1, 1, 0, 0⟩ none)]),
            ("a".toList, [("a_v2.mov".toList, .seqV 2)])], []) := by
  refine ⟨?_, rfl⟩
  intro h
  cases h

/-- C1, amended: scanning a_v20240101.mov and a_v2.mov produces two
separate single-file groups with base names a_ and a, no error, and a
retention plan for each of the two base names; the
MixedVersionFamilies error fires only when the stripped base names
coincide exactly, as for a_v20240101.mov with a__v2.mov (both have
base name a_). -/
theorem C1_amended :
    delete_old_versions ["a_v20240101.mov".toList, "a_v2.mov".toList] 1 =
      .ok ([("a_".toList, ⟨[("a_v20240101.mov".toList, .dateV ⟨2024, 1, 1, 0, 0⟩ none)], []⟩),
            ("a".toList, ⟨[("a_v2.mov".toList, .seqV 2)], []⟩)], []) ∧
    find_latest_versions ["a_v20240101.mov".toList, "a__v2.mov".toList] =
      .error (.mixedVersionFamilies ("a_".toList)) :=
  ⟨rfl, rfl⟩

/-- C2, counterexample: with two directories where the first contains
a mixed-family group (b_v20240101.mov and b__v2.mov both have base
name b_) and the second is fine, the whole run fails with the error:
no result is produced for the second directory, even though that
directory alone scans fine. -/
theorem C2_counterexample :
    runDirs [["b_v20240101.mov".toList, "b__v2.mov".toList],
             ["c_v1.mov".toList, "c_v2.mov".toList]] 1 =
      .error (.mixedVersionFamilies ("b_".toList)) ∧
    delete_old_versions ["c_v1.mov".toList, "c_v2.mov".toList] 1 =
      .ok ([("c".toList, ⟨[("c_v2.mov".toList, .seqV 2)],
                          [("c_v1.mov".toList, .seqV 1)]⟩)], []) :=
  ⟨rfl, rfl⟩

/-- C2, amended: the MixedVersionFamilies error raised while
processing one directory is caught nowhere in the directory loop of
main, so it propagates and terminates the whole multi-directory run:
whatever directories remain are not processed. -/
theorem C2_amended (d : List FName) (rest : List (List FName)) (K : Nat)
    (e : ScanError) (h : delete_old_versions d K = .error e) :
    runDirs (d :: rest) K = .error e := by
  unfold runDirs
  rw [h]

/-- Witness for C2_amended at the concrete mixed directory. -/
theorem C2_amended_witness :
    runDirs [["b_v20240101.mov".toList, "b__v2.mov".toList],
             ["c_v1.mov".toList, "c_v2.mov".toList]] 1 =
      .error (.mixedVersionFamilies ("b_".toList)) :=
  C2_amended ["b_v20240101.mov".toList, "b__v2.mov".toList]
    [["c_v1.mov".toList, "c_v2.mov".toList]] 1
    (.mixedVersionFamilies ("b_".toList)) rfl

/-- C3, counterexample: the name x_v20240101 is matched by BOTH the
trailing date pattern (suffix v20240101) and the trailing sequence
pattern (suffix _v20240101), so the two grammars are not mutually
exclusive; the parser tries the date pattern first and returns its
match. -/
theorem C3_counterexample :
    (findTokenStart isDateToken ("x_v20240101".toList)).isSome = true ∧
    (findTokenStart isSeqToken ("x_v20240101".toList)).isSome = true ∧
    parse_filename ("x_v20240101.mov".toList) =
      ⟨"x_".toList, some ("v20240101".toList), ".mov".toList⟩ :=
  ⟨rfl, rfl, rfl⟩

/-- C3, amended: the two grammars overlap: every stripped name of the
form p ++ _v + 8 digits is matched by both patterns (the date pattern
matching the suffix starting at the v, the sequence pattern matching
from the underscore); the parser tries the date pattern first, so such
a filename parses as a date version whose base name keeps the
underscore. -/
theorem C3_amended (p ds : List Char) (h8 : ds.length = 8)
    (hd : ds.all Char.isDigit = true) :
    findTokenStart isDateToken (p ++ '_' :: 'v' :: ds) = some (p ++ ['_'], 'v' :: ds) ∧
    findTokenStart isSeqToken (p ++ '_' :: 'v' :: ds) = some (p, '_' :: 'v' :: ds) ∧
    (∀ filename, (splitext filename).1 = p ++ '_' :: 'v' :: ds →
      parse_filename filename =
        ⟨p ++ ['_'], some ('v' :: ds), (splitext filename).2⟩) := by
  have hne : ds ≠ [] := by
    intro h
    rw [h] at h8
    simp at h8
  refine ⟨findTokenStart_underscore_date p ds h8 hd,
    findTokenStart_underscore_seq p ds hne hd, ?_⟩
  intro filename hname
  unfold parse_filename
  rw [hname, findTokenStart_underscore_date p ds h8 hd]

/-- Witness for C3_amended at the filename x_v20240101.mov. -/
theorem C3_amended_witness :
    findTokenStart isDateToken ("x_v20240101".toList) =
      some ("x_".toList, "v20240101".toList) ∧
    findTokenStart isSeqToken ("x_v20240101".toList) =
      some ("x".toList, "_v20240101".toList) ∧
    parse_filename ("x_v20240101.mov".toList) =
      ⟨"x_".toList, some ("v20240101".toList), ".mov".toList⟩ := by
  have h := C3_amended ("x".toList) ("20240101".toList) (by decide) (by decide)
  exact ⟨h.1, h.2.1, h.2.2 ("x_v20240101.mov".toList) (by decide)⟩

/-- C4, confirmed: a stripped name ending in a date-shaped token
(v + 8 or 12 digits) followed by two or more alphabetic characters
matches neither pattern 1 nor pattern 2: the parser reports no version
token at all and the file counts as unversioned. -/
theorem C4_multiletter_unversioned (filename p ds ls : List Char)
    (hds : ds.length = 8 ∨ ds.length = 12) (hdig : ds.all Char.isDigit = true)
    (hls : ls.all Char.isAlpha = true) (hlen : 2 ≤ ls.length)
    (hname : (splitext filename).1 = p ++ 'v' :: ds ++ ls) :
    (parse_filename filename).version = none := by
  rcases List.eq_nil_or_concat' ls with rfl | ⟨ls1, y, rfl⟩
  · simp at hlen
  rcases List.eq_nil_or_concat' ls1 with rfl | ⟨ls2, x, rfl⟩
  · simp at hlen
  have hx : x.isAlpha = true := List.all_eq_true.mp hls x (by simp)
  have hy : y.isAlpha = true := List.all_eq_true.mp hls y (by simp)
  refine parse_no_version_of_last_two_alpha filename (p ++ 'v' :: ds ++ ls2) x y hx hy ?_
  rw [hname]
  simp [List.append_assoc]

/-- Witness for C4 at the filename xv20240101ab.mov. -/
theorem C4_witness :
    (parse_filename ("xv20240101ab.mov".toList)).version = none :=
  C4_multiletter_unversioned ("xv20240101ab.mov".toList) ("x".toList)
    ("20240101".toList) ("ab".toList) (.inl (by decide)) (by decide)
    (by decide) (by decide) (by decide)

/-- C5, confirmed: the comparator on two DATE-family tokens compares
the calendar dates first; on equal dates a token with no letter is
strictly older than one with a letter and two letterless tokens are
equal (neither is less than the other); and on the Scenario A files
with keepCount 2 the plan keeps shot_v20240301a.mov then
shot_v20240301.mov and deletes shot_v20240201.mov then
shot_v20240101.mov. -/
theorem C5_date_ordering :
    (∀ (d1 d2 : PyDate) (l1 l2 : Option Char), d1 ≠ d2 →
        vlt (.dateV d1 l1) (.dateV d2 l2) = .ok (dateLt d1 d2)) ∧
    (∀ (d : PyDate) (l : Char),
        vlt (.dateV d none) (.dateV d (some l)) = .ok true) ∧
    (∀ (d : PyDate) (l : Char),
        vlt (.dateV d (some l)) (.dateV d none) = .ok false) ∧
    (∀ d : PyDate, vlt (.dateV d none) (.dateV d none) = .ok false) ∧
    delete_old_versions
      ["shot_v20240101.mov".toList, "shot_v20240201.mov".toList,
       "shot_v20240301a.mov".toList, "shot_v20240301.mov".toList] 2 =
      .ok ([("shot_".toList,
        ⟨[("shot_v20240301a.mov".toList, .dateV ⟨2024, 3, 1, 0, 0⟩ (some 'a')),
          ("shot_v20240301.mov".toList, .dateV ⟨2024, 3, 1, 0, 0⟩ none)],
         [("shot_v20240201.mov".toList, .dateV ⟨2024, 2, 1, 0, 0⟩ none),
          ("shot_v20240101.mov".toList, .dateV ⟨2024, 1, 1, 0, 0⟩ none)]⟩)], []) := by
  refine ⟨?_, ?_, ?_, ?_, rfl⟩
  · intro d1 d2 l1 l2 h
    simp [vlt, h]
  · intro d l
    simp [vlt, letterLt]
  · intro d l
    simp [vlt, letterLt]
  · intro d
    simp [vlt, letterLt]

/-- Witness for C5 discharging the unequal-dates hypothesis at
concrete dates. -/
theorem C5_witness :
    vlt (.dateV ⟨2024, 1, 1, 0, 0⟩ none) (.dateV ⟨2024, 2, 1, 0, 0⟩ none) =
      .ok (dateLt ⟨2024, 1, 1, 0, 0⟩ ⟨2024, 2, 1, 0, 0⟩) :=
  C5_date_ordering.1 ⟨2024, 1, 1, 0, 0⟩ ⟨2024, 2, 1, 0, 0⟩ none none (by decide)

/-- C6, confirmed: comparing a DATE-family version with a
SEQUENCE-family version, in either direction, always raises
IncomparableVersions and never returns an ordering. -/
theorem C6_incomparable :
    ∀ (d : PyDate) (l : Option Char) (n : Nat),
      vlt (.dateV d l) (.seqV n) = .error .incomparable ∧
      vlt (.seqV n) (.dateV d l) = .error .incomparable :=
  fun _ _ _ => ⟨rfl, rfl⟩

/-- C7, confirmed: for a single-family group of size M and keepCount
K at least 1: when M is at most K the delete list is empty and the
keep list is the whole group ordered newest first (a permutation of
the group, sorted descending); when M exceeds K the keep list has
exactly K entries, the delete list M - K entries, and no kept entry
compares below any deleted entry. -/
theorem C7_plan_partition (es : List FileEntry) (K : Nat)
    (hK : 1 ≤ K) (hfam : singleFamily es) :
    (es.length ≤ K →
        (planGroup es K).deleteList = [] ∧
        ((planGroup es K).keepList).Perm es ∧
        ((planGroup es K).keepList).Pairwise (fun a b => entryLt a b = false)) ∧
    (K < es.length →
        (planGroup es K).keepList.length = K ∧
        (planGroup es K).deleteList.length = es.length - K ∧
        ∀ a ∈ (planGroup es K).keepList, ∀ b ∈ (planGroup es K).deleteList,
          entryLt a b = false) := by
  have hlen : (sortD entryLt es).length = es.length := sortD_length entryLt es
  have hperm : (sortD entryLt es).Perm es := sortD_perm entryLt es
  have hpw : (sortD entryLt es).Pairwise (fun a b => entryLt a b = false) :=
    sortD_pairwise entryLt entryLt_asymm entryLt_trans es
  constructor
  · intro hM
    have htake : (sortD entryLt es).take K = sortD entryLt es :=
      List.take_of_length_le (by omega)
    have hdrop : (sortD entryLt es).drop K = [] :=
      List.drop_eq_nil_of_le (by omega)
    refine ⟨?_, ?_, ?_⟩
    · simpa [planGroup] using hdrop
    · simpa [planGroup, htake] using hperm
    · simpa [planGroup, htake] using hpw
  · intro hM
    refine ⟨?_, ?_, ?_⟩
    · simp [planGroup]
      omega
    · simp [planGroup]
      omega
    · intro a ha b hb
      have hsplit : (sortD entryLt es).take K ++ (sortD entryLt es).drop K =
          sortD entryLt es := List.take_append_drop K (sortD entryLt es)
      rw [← hsplit] at hpw
      have hcross := (List.pairwise_append.mp hpw).2.2
      exact hcross a (by simpa [planGroup] using ha) b (by simpa [planGroup] using hb)

/-- Witness for C7 at a concrete two-element sequence-family group,
exercising both the small-group and the overflowing branch. -/
theorem C7_witness :
    (([("x_v1.mov".toList, VersionInfo.seqV 1),
       ("x_v2.mov".toList, VersionInfo.seqV 2)] : List FileEntry).length ≤ 1 →
        (planGroup [("x_v1.mov".toList, .seqV 1), ("x_v2.mov".toList, .seqV 2)] 1).deleteList = [] ∧
        ((planGroup [("x_v1.mov".toList, .seqV 1), ("x_v2.mov".toList, .seqV 2)] 1).keepList).Perm
          [("x_v1.mov".toList, .seqV 1), ("x_v2.mov".toList, .seqV 2)] ∧
        ((planGroup [("x_v1.mov".toList, .seqV 1), ("x_v2.mov".toList, .seqV 2)] 1).keepList).Pairwise
          (fun a b => entryLt a b = false)) ∧
    (1 < ([("x_v1.mov".toList, VersionInfo.seqV 1),
       ("x_v2.mov".toList, VersionInfo.seqV 2)] : List FileEntry).length →
        (planGroup [("x_v1.mov".toList, .seqV 1), ("x_v2.mov".toList, .seqV 2)] 1).keepList.length = 1 ∧
        (planGroup [("x_v1.mov".toList, .seqV 1), ("x_v2.mov".toList, .seqV 2)] 1).deleteList.length =
          ([("x_v1.mov".toList, VersionInfo.seqV 1),
            ("x_v2.mov".toList, VersionInfo.seqV 2)] : List FileEntry).length - 1 ∧
        ∀ a ∈ (planGroup [("x_v1.mov".toList, .seqV 1), ("x_v2.mov".toList, .seqV 2)] 1).keepList,
        ∀ b ∈ (planGroup [("x_v1.mov".toList, .seqV 1), ("x_v2.mov".toList, .seqV 2)] 1).deleteList,
          entryLt a b = false) :=
  C7_plan_partition [("x_v1.mov".toList, .seqV 1), ("x_v2.mov".toList, .seqV 2)] 1
    (by decide) (Or.inr (by decide))

/-- C8, counterexample: the two listings shot_v1.mov, shot_v1.png and
shot_v1.png, shot_v1.mov hold the same set of (path, version) entries
in different orders, yet with keepCount 1 the first keeps the .mov
file and deletes the .png while the second does the opposite: the
keep/delete partition depends on the input order, so no secondary
deterministic tie-break is applied. -/
theorem C8_counterexample :
    delete_old_versions ["shot_v1.mov".toList, "shot_v1.png".toList] 1 =
      .ok ([("shot".toList, ⟨[("shot_v1.mov".toList, .seqV 1)],
                             [("shot_v1.png".toList, .seqV 1)]⟩)], []) ∧
    delete_old_versions ["shot_v1.png".toList, "shot_v1.mov".toList] 1 =
      .ok ([("shot".toList, ⟨[("shot_v1.png".toList, .seqV 1)],
                             [("shot_v1.mov".toList, .seqV 1)]⟩)], []) :=
  ⟨rfl, rfl⟩

/-- C8, amended: the planner applies no secondary tie-break; the sort
is stable, so entries whose version tokens compare equal keep their
input-listing order in the sorted output (restricting the plan to any
one version value yields exactly the input listing restricted to that
value), and hence the keep/delete partition is a function of the
input order, not of the entry set alone. -/
theorem C8_amended_stability (es : List FileEntry) (K : Nat) (v : VersionInfo) :
    ((planGroup es K).keepList ++ (planGroup es K).deleteList).filter
        (fun e => e.2 == v) =
      es.filter (fun e => e.2 == v) := by
  simp only [planGroup, List.take_append_drop]
  refine sortD_filter entryLt (fun e => e.2 == v) entryLt_asymm entryLt_trans ?_ ?_ es
  · intro a b ha hb
    have hav : a.2 = v := by simpa using ha
    have hbv : b.2 = v := by simpa using hb
    show vltB a.2 b.2 = false
    rw [hav, hbv]
    exact vltB_irrefl v
  · intro c a b ha hb
    have hav : a.2 = v := by simpa using ha
    have hbv : b.2 = v := by simpa using hb
    show vltB c.2 a.2 = vltB c.2 b.2
    rw [hav, hbv]

/-- C9, confirmed: classifying the sequence token _vN yields a
SEQUENCE version whose number is exactly N, for every natural N
including 0 and arbitrarily large values; sequence versions are
ordered by numeric value; and on render_v3.mov and render_v10.mov
with keepCount 1 the plan keeps render_v10.mov (numeric 10 above 3,
not a lexicographic comparison). -/
theorem C9_sequence :
    (∀ n : Nat, classify ('_' :: 'v' :: natRepr n) = .ok (.seqV n)) ∧
    (∀ m n : Nat, vlt (.seqV m) (.seqV n) = .ok (decide (m < n))) ∧
    delete_old_versions ["render_v3.mov".toList, "render_v10.mov".toList] 1 =
      .ok ([("render".toList,
        ⟨[("render_v10.mov".toList, .seqV 10)],
         [("render_v3.mov".toList, .seqV 3)]⟩)], []) :=
  ⟨classify_underscore_natRepr, fun _ _ => rfl, rfl⟩

/-- C10, confirmed: every raw token the filename parser emits is
classified either successfully or with the strict-date-parsing error;
the classifier's length-check branch (invalid date version format),
its unrecognized-prefix branch (invalid version format) and the
integer conversion of a sequence token are unreachable on
parser-produced tokens. -/
theorem C10_classifier_totality (f b t e : List Char)
    (h : parse_filename f = ⟨b, some t, e⟩) :
    ((∃ vi, classify t = .ok vi) ∨ classify t = .error .invalidDate) ∧
    classify t ≠ .error .invalidDateFormat ∧
    classify t ≠ .error .invalidVersionFormat ∧
    classify t ≠ .error .invalidSequence := by
  have hmain := parse_token_classify f b t e h
  refine ⟨hmain, ?_, ?_, ?_⟩ <;>
    rcases hmain with ⟨vi, hv⟩ | hv <;> rw [hv] <;> simp

/-- Witness for C10 at the filename a_v20240101.mov, whose token is
v20240101. -/
theorem C10_witness :
    ((∃ vi, classify ("v20240101".toList) = .ok vi) ∨
      classify ("v20240101".toList) = .error .invalidDate) ∧
    classify ("v20240101".toList) ≠ .error .invalidDateFormat ∧
    classify ("v20240101".toList) ≠ .error .invalidVersionFormat ∧
    classify ("v20240101".toList) ≠ .error .invalidSequence :=
  C10_classifier_totality ("a_v20240101.mov".toList) ("a_".toList)
    ("v20240101".toList) (".mov".toList) rfl

end D3
